import Mathlib

/-!
Verification of the Klyppr desktop silence-removal pipeline (`src/main.js`).

The JavaScript source is shallowly embedded: JS numbers are modelled as
rationals (`ℚ`), JS strings as `List Char`, and the stateful pieces
(the silence-stream parser state, the active-process/cancel flags, the
`start-processing` orchestration) as explicit state-passing functions.
Binary-floating-point artifacts of JS arithmetic are not modelled; all
numeric claims under test are exact at the rationals involved.
-/

namespace Klyppr

/-- A time interval in seconds, as used for both silence ranges and
talking ("keep") ranges.  The JS objects are `{start, end}`; `end` is a
reserved word in Lean, so the field is named `stop`. -/
structure Range where
  start : ℚ
  stop : ℚ
deriving DecidableEq, Repr

/-- `const MIN_SEGMENT_DURATION = 0.05;` (src/main.js:14). -/
def MIN_SEGMENT_DURATION : ℚ := 5 / 100

/-- The loop body of `calculateTalkingRanges` (src/main.js:227-249),
with the accumulated `talkingRanges` made explicit as the returned list
and `prevEnd` threaded as an argument.  `videoDuration` is the
post-loop trailing-interval bound. -/
def calcTalkingLoop (videoDuration : ℚ) : List Range → ℚ → List Range
  | [], prevEnd =>
      if prevEnd < videoDuration ∧ videoDuration - prevEnd > MIN_SEGMENT_DURATION then
        [⟨prevEnd, videoDuration⟩]
      else []
  | r :: rs, prevEnd =>
      (if prevEnd < r.start ∧ r.start - prevEnd > MIN_SEGMENT_DURATION then
        [⟨prevEnd, r.start⟩]
      else []) ++ calcTalkingLoop videoDuration rs r.stop

/-- `calculateTalkingRanges(silenceRanges, videoDuration)`
(src/main.js:227-249): scans the silence ranges with `prevEnd`
initialized to 0, emitting a keep interval before each silence range
(and a trailing one up to `videoDuration`) when it is longer than
`MIN_SEGMENT_DURATION`. -/
def calculateTalkingRanges (silenceRanges : List Range) (videoDuration : ℚ) : List Range :=
  calcTalkingLoop videoDuration silenceRanges 0

/-- Modelled from the spec: the §4.2 SegmentReconstructor scan, written
exactly as the spec words it — a left fold over the silence intervals
maintaining `(prevEnd, emitted)` starting at `(0, [])`, each interval
`[s,e]` emitting `{prevEnd, s}` when `prevEnd < s` and
`s - prevEnd > MIN_SEGMENT_DURATION` and then setting `prevEnd = e`,
followed by a final `{prevEnd, totalDuration}` emission under the same
kind of guard.  Used only to compare `calculateTalkingRanges` against
the spec's description. -/
def specScanStep (st : ℚ × List Range) (r : Range) : ℚ × List Range :=
  (r.stop,
    if st.1 < r.start ∧ r.start - st.1 > MIN_SEGMENT_DURATION then
      st.2 ++ [⟨st.1, r.start⟩]
    else st.2)

def specScanFinish (totalDuration : ℚ) (p : ℚ × List Range) : List Range :=
  if p.1 < totalDuration ∧ totalDuration - p.1 > MIN_SEGMENT_DURATION then
    p.2 ++ [⟨p.1, totalDuration⟩]
  else p.2

def specScanTalkingRanges (silence : List Range) (totalDuration : ℚ) : List Range :=
  specScanFinish totalDuration (silence.foldl specScanStep (0, []))

lemma specScan_foldl_eq (d : ℚ) :
    ∀ (s : List Range) (p : ℚ) (acc : List Range),
      specScanFinish d (s.foldl specScanStep (p, acc)) = acc ++ calcTalkingLoop d s p := by
  intro s
  induction s with
  | nil =>
      intro p acc
      simp only [List.foldl_nil, calcTalkingLoop, specScanFinish]
      split
      · rfl
      · simp
  | cons r rs ih =>
      intro p acc
      simp only [List.foldl_cons, calcTalkingLoop, specScanStep]
      rw [ih r.stop]
      by_cases h : p < r.start ∧ r.start - p > MIN_SEGMENT_DURATION
      · simp [h, List.append_assoc]
      · simp [h]

/-- `calculateTalkingRanges` agrees with the spec's scan on every input. -/
lemma calculateTalkingRanges_eq_specScan (s : List Range) (d : ℚ) :
    calculateTalkingRanges s d = specScanTalkingRanges s d := by
  unfold calculateTalkingRanges specScanTalkingRanges
  have h := specScan_foldl_eq d s 0 []
  simpa using h.symm

/-- A list of ranges forms an ordered chain above the lower bound `lb`:
each range is strictly increasing and begins no earlier than the bound,
which then advances to that range's stop. -/
def RangesChain (lb : ℚ) : List Range → Prop
  | [] => True
  | r :: rs => lb ≤ r.start ∧ r.start < r.stop ∧ RangesChain r.stop rs

instance : ∀ (lb : ℚ) (l : List Range), Decidable (RangesChain lb l)
  | _, [] => .isTrue trivial
  | _, r :: rs =>
      have : Decidable (RangesChain r.stop rs) := instDecidableRangesChain r.stop rs
      inferInstanceAs (Decidable (_ ∧ _ ∧ _))

/-- The claim's output invariant: every interval has `start < end` and
each interval's start is at least the previous interval's end. -/
def PairwiseOrdered (l : List Range) : Prop :=
  (∀ r ∈ l, r.start < r.stop) ∧ List.Chain' (fun a b => a.stop ≤ b.start) l

instance (l : List Range) : Decidable (PairwiseOrdered l) :=
  inferInstanceAs (Decidable (_ ∧ _))

lemma rangesChain_pairwiseOrdered : ∀ {lb : ℚ} {l : List Range},
    RangesChain lb l → PairwiseOrdered l := by
  intro lb l
  induction l generalizing lb with
  | nil => intro _; exact ⟨by simp, List.chain'_nil⟩
  | cons r rs ih =>
      rintro ⟨_, hlt, hrest⟩
      obtain ⟨hall, hchain⟩ := ih hrest
      refine ⟨?_, ?_⟩
      · rintro x hx
        rcases List.mem_cons.mp hx with h | h
        · subst h; exact hlt
        · exact hall x h
      · cases rs with
        | nil => exact List.chain'_singleton r
        | cons r2 rs2 => exact List.Chain'.cons hrest.1 hchain

/-- Every interval emitted by `calcTalkingLoop` is strictly increasing,
for arbitrary (even out-of-order) silence input. -/
lemma calcTalkingLoop_start_lt_stop (d : ℚ) :
    ∀ (s : List Range) (p : ℚ), ∀ r ∈ calcTalkingLoop d s p, r.start < r.stop := by
  intro s
  induction s with
  | nil =>
      intro p r hr
      unfold calcTalkingLoop at hr
      split at hr
      · next h => simp only [List.mem_singleton] at hr; subst hr; exact h.1
      · simp at hr
  | cons q qs ih =>
      intro p r hr
      unfold calcTalkingLoop at hr
      rcases List.mem_append.mp hr with h | h
      · split at h
        · next hc => simp only [List.mem_singleton] at h; subst h; exact hc.1
        · simp at h
      · exact ih q.stop r h

/-- Under a lower bound below `prevEnd` and below every silence start,
with well-formed silence intervals sorted by start, the emitted keep
intervals form an ordered chain above that bound. -/
lemma calcTalkingLoop_chain (d : ℚ) :
    ∀ (s : List Range) (p lb : ℚ),
      (∀ r ∈ s, r.start ≤ r.stop) →
      List.Pairwise (fun a b => a.start ≤ b.start) s →
      lb ≤ p → (∀ r ∈ s, lb ≤ r.start) →
      RangesChain lb (calcTalkingLoop d s p) := by
  intro s
  induction s with
  | nil =>
      intro p lb _ _ hlbp _
      unfold calcTalkingLoop
      split
      · next h => exact ⟨hlbp, h.1, trivial⟩
      · trivial
  | cons r rs ih =>
      intro p lb hwf hsorted hlbp hlbs
      unfold calcTalkingLoop
      have hwf' : ∀ q ∈ rs, q.start ≤ q.stop := fun q hq => hwf q (List.mem_cons_of_mem r hq)
      have hsorted' := (List.pairwise_cons.mp hsorted).2
      have hhead : ∀ q ∈ rs, r.start ≤ q.start := (List.pairwise_cons.mp hsorted).1
      by_cases hc : p < r.start ∧ r.start - p > MIN_SEGMENT_DURATION
      · rw [if_pos hc]
        refine ⟨hlbp, hc.1, ?_⟩
        exact ih r.stop r.start hwf' hsorted'
          (hwf r (List.mem_cons_self r rs)) hhead
      · rw [if_neg hc]
        simp only [List.nil_append]
        refine ih r.stop lb hwf' hsorted' ?_ fun q hq => le_trans ?_ (hhead q hq)
        · exact le_trans (hlbs r (List.mem_cons_self r rs)) (hwf r (List.mem_cons_self r rs))
        · exact hlbs r (List.mem_cons_self r rs)

lemma foldr_min_le_init (s : List Range) (a : ℚ) :
    s.foldr (fun r m => min r.start m) a ≤ a := by
  induction s with
  | nil => exact le_refl a
  | cons r rs ih => exact le_trans (min_le_right _ _) ih

lemma foldr_min_le_mem (s : List Range) (a : ℚ) :
    ∀ r ∈ s, s.foldr (fun r m => min r.start m) a ≤ r.start := by
  induction s with
  | nil => intro r hr; simp at hr
  | cons q qs ih =>
      intro r hr
      rcases List.mem_cons.mp hr with h | h
      · subst h; exact min_le_left _ _
      · exact le_trans (min_le_right _ _) (ih r h)

/-- Claim C1 (amended): `calculateTalkingRanges` returns exactly the
intervals of the spec's `prevEnd` scan for every silence list and
`totalDuration`; in particular an empty silence list yields the single
keep interval `[0, totalDuration]` whenever
`totalDuration > MIN_SEGMENT_DURATION` (for shorter durations the
scan's own final guard discards it). -/
theorem talkingRanges_spec_scan :
    (∀ (s : List Range) (d : ℚ), calculateTalkingRanges s d = specScanTalkingRanges s d) ∧
    ∀ d : ℚ, MIN_SEGMENT_DURATION < d → calculateTalkingRanges [] d = [⟨0, d⟩] := by
  refine ⟨calculateTalkingRanges_eq_specScan, fun d hd => ?_⟩
  have h0 : (0 : ℚ) < d := lt_trans (by norm_num [MIN_SEGMENT_DURATION]) hd
  unfold calculateTalkingRanges calcTalkingLoop
  rw [if_pos ⟨h0, by simpa using hd⟩]

/-- Claim C1, counterexample to the unconditional "in particular"
clause: with `totalDuration = 0.03 ≤ MIN_SEGMENT_DURATION`, the empty
silence list yields no keep interval at all, not `[0, totalDuration]`. -/
theorem talkingRanges_empty_short_video :
    calculateTalkingRanges [] (3 / 100) = [] ∧
    calculateTalkingRanges [] (3 / 100) ≠ [⟨0, 3 / 100⟩] := by
  have h : calculateTalkingRanges [] (3 / 100) = [] := by
    norm_num [calculateTalkingRanges, calcTalkingLoop, MIN_SEGMENT_DURATION]
  exact ⟨h, by rw [h]; exact fun hc => List.noConfusion hc⟩

theorem talkingRanges_spec_scan_witness :
    calculateTalkingRanges [] 1 = [⟨0, 1⟩] :=
  talkingRanges_spec_scan.2 1 (by norm_num [MIN_SEGMENT_DURATION])

/-- Claim C2 (amended): every keep interval returned by
`calculateTalkingRanges` has `start < end`, on arbitrary input; and the
returned intervals are strictly increasing and pairwise non-overlapping
provided each silence interval is well-formed (`start ≤ end`) and the
list is ordered by non-decreasing start (adjacent or overlapping
silence intervals are fine).  For out-of-order input the non-overlap
part fails, see the counterexample. -/
theorem talkingRanges_ordered :
    (∀ (s : List Range) (d : ℚ), ∀ r ∈ calculateTalkingRanges s d, r.start < r.stop) ∧
    ∀ (s : List Range) (d : ℚ),
      (∀ r ∈ s, r.start ≤ r.stop) →
      List.Pairwise (fun a b => a.start ≤ b.start) s →
      PairwiseOrdered (calculateTalkingRanges s d) := by
  constructor
  · intro s d
    exact calcTalkingLoop_start_lt_stop d s 0
  · intro s d hwf hsorted
    refine rangesChain_pairwiseOrdered
      (calcTalkingLoop_chain d s 0 (s.foldr (fun r m => min r.start m) 0) hwf hsorted ?_ ?_)
    · exact foldr_min_le_init s 0
    · exact foldr_min_le_mem s 0

/-- Claim C2, counterexample: with out-of-order silence input
`[[10,20],[0,1]]` over duration 30 the output is `[[0,10],[1,30]]`,
whose second interval starts before the first one ends. -/
theorem talkingRanges_unordered_overlap :
    calculateTalkingRanges [⟨10, 20⟩, ⟨0, 1⟩] 30 = [⟨0, 10⟩, ⟨1, 30⟩] ∧
    ¬ PairwiseOrdered (calculateTalkingRanges [⟨10, 20⟩, ⟨0, 1⟩] 30) := by
  have h : calculateTalkingRanges [⟨10, 20⟩, ⟨0, 1⟩] 30 = [⟨0, 10⟩, ⟨1, 30⟩] := by
    norm_num [calculateTalkingRanges, calcTalkingLoop, MIN_SEGMENT_DURATION]
  refine ⟨h, fun hc => ?_⟩
  rw [h] at hc
  have h10 := hc.2
  simp only [List.chain'_cons, List.chain'_singleton, and_true] at h10
  norm_num at h10

theorem talkingRanges_ordered_witness :
    PairwiseOrdered (calculateTalkingRanges [⟨1, 2⟩, ⟨3, 4⟩] 10) :=
  talkingRanges_ordered.2 [⟨1, 2⟩, ⟨3, 4⟩] 10 (by norm_num)
    (by norm_num [List.pairwise_cons])

/-- Claim C8 (amended): `calculateTalkingRanges` is total (a pure Lean
function) and deterministic — equal inputs give equal outputs — and for
`totalDuration ≤ 0` the empty silence list yields the empty result.
With a non-empty silence list, `totalDuration ≤ 0` does not force an
empty result, because the in-loop keep intervals do not depend on
`totalDuration`; see the counterexample. -/
theorem talkingRanges_total_deterministic :
    (∀ (s₁ s₂ : List Range) (d₁ d₂ : ℚ), s₁ = s₂ → d₁ = d₂ →
        calculateTalkingRanges s₁ d₁ = calculateTalkingRanges s₂ d₂) ∧
    ∀ d : ℚ, d ≤ 0 → calculateTalkingRanges [] d = [] := by
  constructor
  · intro s₁ s₂ d₁ d₂ hs hd
    rw [hs, hd]
  · intro d hd
    unfold calculateTalkingRanges calcTalkingLoop
    rw [if_neg]
    rintro ⟨h0, -⟩
    exact absurd h0 (not_lt.mpr hd)

/-- Claim C8, counterexample: `totalDuration = 0 ≤ 0` with silence list
`[[10,20]]` returns the non-empty result `[[0,10]]`, not the empty
list. -/
theorem talkingRanges_nonpos_duration :
    calculateTalkingRanges [⟨10, 20⟩] 0 = [⟨0, 10⟩] ∧
    calculateTalkingRanges [⟨10, 20⟩] 0 ≠ [] ∧ (0 : ℚ) ≤ 0 := by
  have h : calculateTalkingRanges [⟨10, 20⟩] 0 = [⟨0, 10⟩] := by
    norm_num [calculateTalkingRanges, calcTalkingLoop, MIN_SEGMENT_DURATION]
  exact ⟨h, by rw [h]; exact fun hc => List.noConfusion hc, le_refl 0⟩

theorem talkingRanges_total_deterministic_witness :
    calculateTalkingRanges [] (-1) = [] :=
  talkingRanges_total_deterministic.2 (-1) (by norm_num)

/-! ### Silence-stream parsing (src/main.js:478-552)

JS numbers are rationals; `none` stands for `NaN` (an unparseable
`parseFloat` result), which the JS code lets flow through arithmetic
and whose comparisons are always false. -/

/-- A JS number that may be `NaN` (`none`). -/
def JSNum := Option ℚ
deriving DecidableEq

/-- NaN-propagating addition. -/
def jadd : JSNum → JSNum → JSNum
  | some a, some b => some (a + b)
  | _, _ => none

/-- NaN-propagating subtraction. -/
def jsub : JSNum → JSNum → JSNum
  | some a, some b => some (a - b)
  | _, _ => none

/-- String literals are embedded as their character lists. -/
def str (s : String) : List Char := s.toList

/-- The regex character class `[\d.]`. -/
def isNumChar (c : Char) : Bool := c.isDigit || c = '.'

/-- First match of the regex `pat([\d.]+)` in a line: scan left to
right; where the literal pattern matches and is followed by at least
one `[\d.]` character, capture the maximal such run (greedy `+`),
otherwise keep scanning. -/
def findCapture (pat : List Char) : List Char → Option (List Char)
  | [] => none
  | c :: rest =>
      if pat.isPrefixOf (c :: rest) then
        let run := ((c :: rest).drop pat.length).takeWhile isNumChar
        if run = [] then findCapture pat rest else some run
      else findCapture pat rest

/-- Accumulate a maximal run of decimal digits: returns the value so
far, the number of digits consumed, and the rest of the input. -/
def digitsAux : List Char → Nat → Nat → Nat × Nat × List Char
  | [], v, k => (v, k, [])
  | c :: rest, v, k =>
      if c.isDigit then digitsAux rest (10 * v + (c.toNat - '0'.toNat)) (k + 1)
      else (v, k, c :: rest)

/-- JS `parseFloat` restricted to strings drawn from `[\d.]+` (the only
inputs the silence regexes can capture): integer digits, an optional
dot with fraction digits, junk after a second dot ignored; no digits at
all is `NaN`. -/
def jsParseFloat (cs : List Char) : JSNum :=
  let p := digitsAux cs 0 0
  match p.2.2 with
  | '.' :: rest2 =>
      let q := digitsAux rest2 0 0
      if p.2.1 = 0 ∧ q.2.1 = 0 then none
      else some ((p.1 : ℚ) + (q.1 : ℚ) / (10 : ℚ) ^ q.2.1)
  | _ => if p.2.1 = 0 then none else some ((p.1 : ℚ))

/-- `parseSilenceLine(line)` (src/main.js:478-485): match
`/silence_start: ([\d.]+)/` and `/silence_end: ([\d.]+)/`, running
`parseFloat` on each captured group; `null` (outer `none`) when the
regex does not match. -/
def parseSilenceLine (line : List Char) : Option JSNum × Option JSNum :=
  ((findCapture (str "silence_start: ") line).map jsParseFloat,
   (findCapture (str "silence_end: ") line).map jsParseFloat)

/-- The `{adjustedStart, adjustedEnd, duration}` record returned by
`processSilenceRange` (src/main.js:487-495). -/
structure AdjustedRange where
  adjustedStart : JSNum
  adjustedEnd : JSNum
  duration : JSNum

/-- `processSilenceRange(startTime, endTime, paddingDuration)`
(src/main.js:487-495). -/
def processSilenceRange (startTime endTime paddingDuration : JSNum) : AdjustedRange :=
  let adjustedStart := jadd startTime paddingDuration
  let adjustedEnd := jsub endTime paddingDuration
  ⟨adjustedStart, adjustedEnd, jsub adjustedEnd adjustedStart⟩

/-- One `stderr`-line step of `detectSilence` (src/main.js:514-536):
state is the pending `startTime` plus the accumulated `silenceRanges`.
A matched start overwrites the pending start; a matched end with a
pending start pushes the padding-adjusted range when its duration
exceeds `MIN_SEGMENT_DURATION` and clears the pending start either way.
The guard `duration > MIN_SEGMENT_DURATION` is false for `NaN`, so a
range is pushed only when all adjusted values are real numbers. -/
def detectStep (padding : JSNum) (st : Option JSNum × List Range) (line : List Char) :
    Option JSNum × List Range :=
  let ps := (parseSilenceLine line).1
  let pe := (parseSilenceLine line).2
  let startTime : Option JSNum := match ps with | some v => some v | none => st.1
  match pe, startTime with
  | some te, some ts =>
      let a := processSilenceRange ts te padding
      (none,
        match a.adjustedStart, a.adjustedEnd, a.duration with
        | some s, some e, some dur =>
            if dur > MIN_SEGMENT_DURATION then st.2 ++ [⟨s, e⟩] else st.2
        | _, _, _ => st.2)
  | _, _ => (startTime, st.2)

/-- The silence ranges accumulated by `detectSilence` over a finished
stream of stderr lines, starting from no pending start and no ranges. -/
def runDetect (padding : JSNum) (lines : List (List Char)) : List Range :=
  (lines.foldl (detectStep padding) (none, [])).2

lemma jsParseFloat_two : jsParseFloat (str "2.0") = some 2 := by
  have hd : digitsAux (str "2.0") 0 0 = (2, 1, '.' :: ['0']) := by decide
  have hd2 : digitsAux ['0'] 0 0 = (0, 1, []) := by decide
  simp only [jsParseFloat, hd]
  norm_num [hd2]

lemma jsParseFloat_two_oh_three : jsParseFloat (str "2.03") = some (203 / 100) := by
  have hd : digitsAux (str "2.03") 0 0 = (2, 1, '.' :: ['0', '3']) := by decide
  have hd2 : digitsAux ['0', '3'] 0 0 = (3, 2, []) := by decide
  simp only [jsParseFloat, hd]
  norm_num [hd2]

lemma jsParseFloat_three : jsParseFloat (str "3.0") = some 3 := by
  have hd : digitsAux (str "3.0") 0 0 = (3, 1, '.' :: ['0']) := by decide
  have hd2 : digitsAux ['0'] 0 0 = (0, 1, []) := by decide
  simp only [jsParseFloat, hd]
  norm_num [hd2]

lemma parseSilenceLine_start20 :
    parseSilenceLine (str "silence_start: 2.0") = (some (some 2), none) := by
  have h1 : findCapture (str "silence_start: ") (str "silence_start: 2.0")
      = some (str "2.0") := by decide
  have h2 : findCapture (str "silence_end: ") (str "silence_start: 2.0") = none := by decide
  simp [parseSilenceLine, h1, h2, jsParseFloat_two]

lemma parseSilenceLine_end203 :
    parseSilenceLine (str "silence_end: 2.03") = (none, some (some (203 / 100))) := by
  have h1 : findCapture (str "silence_start: ") (str "silence_end: 2.03") = none := by decide
  have h2 : findCapture (str "silence_end: ") (str "silence_end: 2.03")
      = some (str "2.03") := by decide
  simp [parseSilenceLine, h1, h2, jsParseFloat_two_oh_three]

lemma parseSilenceLine_end30 :
    parseSilenceLine (str "silence_end: 3.0") = (none, some (some 3)) := by
  have h1 : findCapture (str "silence_start: ") (str "silence_end: 3.0") = none := by decide
  have h2 : findCapture (str "silence_end: ") (str "silence_end: 3.0")
      = some (str "3.0") := by decide
  simp [parseSilenceLine, h1, h2, jsParseFloat_three]

/-- A matched-start line simply records the pending start. -/
lemma detectStep_start (padding : JSNum) (st : Option JSNum × List Range)
    (line : List Char) (v : JSNum) (h : parseSilenceLine line = (some v, none)) :
    detectStep padding st line = (some v, st.2) := by
  simp [detectStep, h]

/-- A matched-end line with a real pending start, real end and real
padding emits the adjusted interval exactly when its adjusted duration
exceeds `MIN_SEGMENT_DURATION`, and clears the pending start either
way. -/
lemma detectStep_end (p S T : ℚ) (acc : List Range) (line : List Char)
    (h : parseSilenceLine line = (none, some (some T))) :
    detectStep (some p) (some (some S), acc) line =
      (none,
        if (T - p) - (S + p) > MIN_SEGMENT_DURATION then acc ++ [⟨S + p, T - p⟩]
        else acc) := by
  simp [detectStep, h, processSilenceRange, jadd, jsub]

/-- Claim C4: fed `silence_start: 2.0` then `silence_end: 2.03` with
padding 0.05 the parser emits no interval; fed `silence_start: 2.0`
then `silence_end: 3.0` it emits exactly `{2.05, 2.95}`; and in general
a matched start `S` / end `T` pair emits `{S+padding, T-padding}` iff
`(T-padding) - (S+padding) > MIN_SEGMENT_DURATION`, the pending start
being cleared regardless of emission. -/
theorem silence_stream_cases :
    runDetect (some (5 / 100)) [str "silence_start: 2.0", str "silence_end: 2.03"] = [] ∧
    runDetect (some (5 / 100)) [str "silence_start: 2.0", str "silence_end: 3.0"]
      = [⟨41 / 20, 59 / 20⟩] ∧
    ∀ (line : List Char) (S T p : ℚ) (acc : List Range),
      parseSilenceLine line = (none, some (some T)) →
      detectStep (some p) (some (some S), acc) line =
        (none,
          if (T - p) - (S + p) > MIN_SEGMENT_DURATION then acc ++ [⟨S + p, T - p⟩]
          else acc) := by
  refine ⟨?_, ?_, fun line S T p acc h => detectStep_end p S T acc line h⟩
  · rw [runDetect, List.foldl_cons,
      detectStep_start _ _ _ _ parseSilenceLine_start20, List.foldl_cons,
      detectStep_end (5 / 100) 2 (203 / 100) [] _ parseSilenceLine_end203, List.foldl_nil]
    norm_num [MIN_SEGMENT_DURATION]
  · rw [runDetect, List.foldl_cons,
      detectStep_start _ _ _ _ parseSilenceLine_start20, List.foldl_cons,
      detectStep_end (5 / 100) 2 3 [] _ parseSilenceLine_end30, List.foldl_nil]
    norm_num [MIN_SEGMENT_DURATION]

theorem silence_stream_cases_witness :
    detectStep (some (5 / 100)) (some (some 2), []) (str "silence_end: 3.0") =
      (none,
        if (3 - 5 / 100) - (2 + 5 / 100) > MIN_SEGMENT_DURATION
        then [⟨2 + 5 / 100, 3 - 5 / 100⟩] else []) :=
  silence_stream_cases.2.2 (str "silence_end: 3.0") 2 3 (5 / 100) []
    parseSilenceLine_end30

/-! ### Filter-script generation (src/main.js:315-333) -/

def digitChars : List Char := str "0123456789"

/-- The decimal digit character for `d % 10`. -/
def digitChar (d : Nat) : Char :=
  match d % 10 with
  | 0 => '0' | 1 => '1' | 2 => '2' | 3 => '3' | 4 => '4'
  | 5 => '5' | 6 => '6' | 7 => '7' | 8 => '8' | _ => '9'

/-- Fuelled decimal rendering of a natural number (the fuel `n + 1`
always suffices, and keeps the definition structurally recursive). -/
def natToCharsAux : Nat → Nat → List Char → List Char
  | 0, _, acc => acc
  | fuel + 1, n, acc =>
      if n < 10 then digitChar n :: acc
      else natToCharsAux fuel (n / 10) (digitChar (n % 10) :: acc)

/-- JS `i.toString()` for a natural number. -/
def natToChars (n : Nat) : List Char := natToCharsAux (n + 1) n []

/-- The last four decimal digits of `m`, zero-padded. -/
def frac4 (m : Nat) : List Char :=
  [digitChar (m / 1000), digitChar (m / 100), digitChar (m / 10), digitChar m]

/-- Decimal rendering of a non-negative rational with exactly four
fraction digits, rounding to nearest (half away from zero).  Models JS
`Number.prototype.toFixed(4)`; double-precision representation
artifacts of JS rounding are not modelled (no claim depends on the
rendered digits). -/
def toFixed4Abs (q : ℚ) : List Char :=
  let n : Nat := (⌊q * 10000 + 1 / 2⌋).toNat
  natToChars (n / 10000) ++ '.' :: frac4 (n % 10000)

/-- JS `q.toFixed(4)` on a rational, with a leading sign for negative
inputs. -/
def toFixed4 (q : ℚ) : List Char :=
  if q < 0 then '-' :: toFixed4Abs (-q) else toFixed4Abs q

/-- JS `Array.prototype.map((x, i) => f i x)` starting at index `k`. -/
def mapIdxFrom (f : Nat → α → β) : Nat → List α → List β
  | _, [] => []
  | k, x :: xs => f k x :: mapIdxFrom f (k + 1) xs

/-- The video half of one `filterParts` entry
(src/main.js:317): `[0:v]trim=start=S:end=E,setpts=PTS-STARTPTS[vK]`. -/
def vclause (i : Nat) (r : Range) : List Char :=
  str "[0:v]trim=start=" ++ toFixed4 r.start ++ str ":end=" ++ toFixed4 r.stop ++
  str ",setpts=PTS-STARTPTS[v" ++ natToChars i ++ str "]"

/-- The audio half of one `filterParts` entry
(src/main.js:318): `[0:a]atrim=start=S:end=E,asetpts=PTS-STARTPTS[aK]`. -/
def aclause (i : Nat) (r : Range) : List Char :=
  str "[0:a]atrim=start=" ++ toFixed4 r.start ++ str ":end=" ++ toFixed4 r.stop ++
  str ",asetpts=PTS-STARTPTS[a" ++ natToChars i ++ str "]"

/-- One `filterParts` entry (src/main.js:316-319): the JS template
string contains the video clause, a literal `;`, and the audio
clause. -/
def vaPart (i : Nat) (r : Range) : List Char := vclause i r ++ ';' :: aclause i r

/-- One `concatInputs` entry (src/main.js:321): `[vK][aK]`. -/
def padPair (i : Nat) : List Char :=
  str "[v" ++ natToChars i ++ str "][a" ++ natToChars i ++ str "]"

/-- JS `Array.prototype.join(';')`. -/
def joinSemi : List (List Char) → List Char
  | [] => []
  | [x] => x
  | x :: y :: xs => x ++ ';' :: joinSemi (y :: xs)

/-- The concat filter clause (src/main.js:324): `concat=n=N:v=1:a=1`. -/
def concatClause (n : Nat) : List Char :=
  str "concat=n=" ++ natToChars n ++ str ":v=1:a=1"

/-- `buildFilterScript(talkingRanges, normalizeAudio)`
(src/main.js:315-333): per-range trim/atrim parts joined with `;`,
then `;`, the concat pad inputs, the concat clause, and either the
normalization tail (`copy` video, `loudnorm` audio) or the plain
`[outv][outa]` output labels. -/
def buildFilterScript (talkingRanges : List Range) (normalizeAudio : Bool) : List Char :=
  joinSemi (mapIdxFrom vaPart 0 talkingRanges) ++ str ";" ++
  (mapIdxFrom (fun i _ => padPair i) 0 talkingRanges).flatten ++
  concatClause talkingRanges.length ++
  (if normalizeAudio then
    str "[tmpv][tmpa];[tmpv]copy[outv];[tmpa]loudnorm=I=-16:TP=-1.5:LRA=11[outa]"
  else str "[outv][outa]")

/-- Split a string at every `;` (the clause separator of a filter
graph). -/
def semiSplit : List Char → List (List Char)
  | [] => [[]]
  | c :: rest =>
      if c = ';' then [] :: semiSplit rest
      else
        match semiSplit rest with
        | [] => [[c]]
        | s :: ss => (c :: s) :: ss

/-- Number of positions at which `p` occurs as a substring. -/
def countOccur (p : List Char) : List Char → Nat
  | [] => 0
  | c :: rest => (if p.isPrefixOf (c :: rest) then 1 else 0) + countOccur p rest

/-- The expected `;`-separated clause segments for the keep intervals:
for interval `i` at index `k`, its video-trim clause then its
audio-trim clause, in index order. -/
def clauseSegs : Nat → List Range → List (List Char)
  | _, [] => []
  | k, r :: rs => vclause k r :: aclause k r :: clauseSegs (k + 1) rs

/-- The expected trailing segments of the filter graph after all trim
clauses: the concat segment (pads, concat clause, and its output
labels), plus the two normalization segments when requested. -/
def tailSegs (ks : List Range) (normalizeAudio : Bool) : List (List Char) :=
  let cat := (mapIdxFrom (fun i _ => padPair i) 0 ks).flatten ++ concatClause ks.length
  if normalizeAudio then
    [cat ++ str "[tmpv][tmpa]", str "[tmpv]copy[outv]",
     str "[tmpa]loudnorm=I=-16:TP=-1.5:LRA=11[outa]"]
  else [cat ++ str "[outv][outa]"]

/-- Characters that are neither the clause separator `;` nor the letter
`l` (the head of `loudnorm`).  Everything a trim clause can contain is
clean. -/
def CleanChar (c : Char) : Prop := c ≠ ';' ∧ c ≠ 'l'

instance (c : Char) : Decidable (CleanChar c) :=
  inferInstanceAs (Decidable (_ ∧ _))

lemma digitChar_mem (d : Nat) : digitChar d ∈ digitChars := by
  unfold digitChar
  have h : d % 10 < 10 := Nat.mod_lt _ (by norm_num)
  set m := d % 10 with hm
  interval_cases m <;> decide

lemma natToCharsAux_mem : ∀ (fuel n : Nat) (acc : List Char) (c : Char),
    c ∈ natToCharsAux fuel n acc → c ∈ digitChars ∨ c ∈ acc := by
  intro fuel
  induction fuel with
  | zero => intro n acc c hc; exact Or.inr hc
  | succ f ih =>
      intro n acc c hc
      rw [natToCharsAux] at hc
      split at hc
      · rcases List.mem_cons.mp hc with h | h
        · exact Or.inl (h ▸ digitChar_mem n)
        · exact Or.inr h
      · rcases ih _ _ _ hc with h | h
        · exact Or.inl h
        · rcases List.mem_cons.mp h with h2 | h2
          · exact Or.inl (h2 ▸ digitChar_mem _)
          · exact Or.inr h2

lemma natToChars_mem (n : Nat) : ∀ c ∈ natToChars n, c ∈ digitChars := by
  intro c hc
  rcases natToCharsAux_mem (n + 1) n [] c hc with h | h
  · exact h
  · simp at h

lemma clean_of_digit {c : Char} (h : c ∈ digitChars) : CleanChar c := by
  constructor <;> intro he <;> subst he <;> revert h <;> decide

lemma toFixed4Abs_clean (q : ℚ) : ∀ c ∈ toFixed4Abs q, CleanChar c := by
  intro c hc
  simp only [toFixed4Abs, List.mem_append, List.mem_cons] at hc
  rcases hc with h | h | h
  · exact clean_of_digit (natToChars_mem _ c h)
  · subst h; decide
  · simp only [frac4, List.mem_cons] at h
    rcases h with h | h | h | h | h
    all_goals first
      | (subst h; exact clean_of_digit (digitChar_mem _))
      | simp at h

lemma toFixed4_clean (q : ℚ) : ∀ c ∈ toFixed4 q, CleanChar c := by
  intro c hc
  unfold toFixed4 at hc
  split at hc
  · rcases List.mem_cons.mp hc with h | h
    · subst h; decide
    · exact toFixed4Abs_clean _ c h
  · exact toFixed4Abs_clean _ c hc

lemma vclause_clean (i : Nat) (r : Range) : ∀ c ∈ vclause i r, CleanChar c := by
  intro c hc
  simp only [vclause, List.append_assoc, List.mem_append] at hc
  rcases hc with h | h | h | h | h | h | h
  · revert c; decide
  · exact toFixed4_clean _ c h
  · revert c; decide
  · exact toFixed4_clean _ c h
  · revert c; decide
  · exact clean_of_digit (natToChars_mem _ c h)
  · revert c; decide

lemma aclause_clean (i : Nat) (r : Range) : ∀ c ∈ aclause i r, CleanChar c := by
  intro c hc
  simp only [aclause, List.append_assoc, List.mem_append] at hc
  rcases hc with h | h | h | h | h | h | h
  · revert c; decide
  · exact toFixed4_clean _ c h
  · revert c; decide
  · exact toFixed4_clean _ c h
  · revert c; decide
  · exact clean_of_digit (natToChars_mem _ c h)
  · revert c; decide

lemma padPair_clean (i : Nat) : ∀ c ∈ padPair i, CleanChar c := by
  intro c hc
  simp only [padPair, List.append_assoc, List.mem_append] at hc
  rcases hc with h | h | h | h | h
  · revert c; decide
  · exact clean_of_digit (natToChars_mem _ c h)
  · revert c; decide
  · exact clean_of_digit (natToChars_mem _ c h)
  · revert c; decide

lemma concatClause_clean (n : Nat) : ∀ c ∈ concatClause n, CleanChar c := by
  intro c hc
  simp only [concatClause, List.append_assoc, List.mem_append] at hc
  rcases hc with h | h | h
  · revert c; decide
  · exact clean_of_digit (natToChars_mem _ c h)
  · revert c; decide

lemma pads_flatten_clean (ks : List Range) : ∀ k,
    ∀ c ∈ (mapIdxFrom (fun i _ => padPair i) k ks).flatten, CleanChar c := by
  induction ks with
  | nil => intro k c hc; simp [mapIdxFrom] at hc
  | cons r rs ih =>
      intro k c hc
      simp only [mapIdxFrom, List.flatten_cons, List.mem_append] at hc
      rcases hc with h | h
      · exact padPair_clean k c h
      · exact ih (k + 1) c h

lemma joinSemi_forall {P : Char → Prop} (hsemi : P ';') :
    ∀ (ps : List (List Char)), (∀ p ∈ ps, ∀ c ∈ p, P c) →
      ∀ c ∈ joinSemi ps, P c := by
  intro ps
  induction ps with
  | nil => intro _ c hc; simp [joinSemi] at hc
  | cons x ys ih =>
      intro hall c hc
      cases ys with
      | nil =>
          rw [joinSemi] at hc
          exact hall x (List.mem_cons_self x []) c hc
      | cons y zs =>
          rw [joinSemi] at hc
          rcases List.mem_append.mp hc with h | h
          · exact hall x (List.mem_cons_self _ _) c h
          · rcases List.mem_cons.mp h with h2 | h2
            · exact h2 ▸ hsemi
            · exact ih (fun p hp => hall p (List.mem_cons_of_mem x hp)) c h2

lemma isPrefixOf_append_left : ∀ (p a b : List Char), p.length ≤ a.length →
    (p.isPrefixOf (a ++ b)) = p.isPrefixOf a := by
  intro p
  induction p with
  | nil => intro a b _; simp [List.isPrefixOf]
  | cons x p2 ih =>
      intro a b h
      cases a with
      | nil => simp at h
      | cons c a2 =>
          simp only [List.cons_append, List.isPrefixOf, List.append_eq]
          rw [ih a2 b (by simpa using h)]

lemma countOccur_append_left_free (ch : Char) (p : List Char) :
    ∀ (a b : List Char), (∀ c ∈ a, c ≠ ch) →
      countOccur (ch :: p) (a ++ b) = countOccur (ch :: p) b := by
  intro a
  induction a with
  | nil => intro b _; rfl
  | cons c a2 ih =>
      intro b h
      rw [List.cons_append, countOccur]
      have hc : (ch == c) = false := by
        have hne := h c (List.mem_cons_self c a2)
        simp only [beq_eq_false_iff_ne, ne_eq]
        exact fun he => hne he.symm
      simp only [List.isPrefixOf, hc, Bool.false_and, Bool.false_eq_true,
        if_false, Nat.zero_add]
      exact ih b (fun d hd => h d (List.mem_cons_of_mem c hd))

lemma countOccur_eq_zero_of_free (ch : Char) (p : List Char)
    (s : List Char) (h : ∀ c ∈ s, c ≠ ch) : countOccur (ch :: p) s = 0 := by
  have := countOccur_append_left_free ch p s [] h
  simpa using this

lemma semiSplit_no_semi : ∀ (a : List Char), (∀ c ∈ a, c ≠ ';') →
    semiSplit a = [a] := by
  intro a
  induction a with
  | nil => intro _; rfl
  | cons c rest ih =>
      intro h
      rw [semiSplit, if_neg (h c (List.mem_cons_self c rest)),
        ih (fun d hd => h d (List.mem_cons_of_mem c hd))]

lemma semiSplit_append_semi : ∀ (a b : List Char), (∀ c ∈ a, c ≠ ';') →
    semiSplit (a ++ ';' :: b) = a :: semiSplit b := by
  intro a
  induction a with
  | nil => intro b _; rw [List.nil_append, semiSplit, if_pos rfl]
  | cons c a2 ih =>
      intro b h
      rw [List.cons_append, semiSplit, if_neg (h c (List.mem_cons_self c a2)),
        ih b (fun d hd => h d (List.mem_cons_of_mem c hd))]

lemma vclause_no_semi (i : Nat) (r : Range) : ∀ c ∈ vclause i r, c ≠ ';' :=
  fun c hc => (vclause_clean i r c hc).1

lemma aclause_no_semi (i : Nat) (r : Range) : ∀ c ∈ aclause i r, c ≠ ';' :=
  fun c hc => (aclause_clean i r c hc).1

/-- Splitting the joined `filterParts` before an appended `;`-prefixed
tail yields the video and audio clauses as individual segments, in
index order. -/
lemma semiSplit_parts : ∀ (ks : List Range) (k : Nat) (T : List Char), ks ≠ [] →
    semiSplit (joinSemi (mapIdxFrom vaPart k ks) ++ ';' :: T)
      = clauseSegs k ks ++ semiSplit T := by
  intro ks
  induction ks with
  | nil => intro k T h; exact absurd rfl h
  | cons r rs ih =>
      intro k T _
      cases rs with
      | nil =>
          rw [show joinSemi (mapIdxFrom vaPart k [r]) = vaPart k r from rfl, vaPart]
          rw [show (vclause k r ++ ';' :: aclause k r) ++ ';' :: T
              = vclause k r ++ ';' :: (aclause k r ++ ';' :: T) by
            simp [List.append_assoc]]
          rw [semiSplit_append_semi _ _ (vclause_no_semi k r),
            semiSplit_append_semi _ _ (aclause_no_semi k r)]
          rfl
      | cons r2 rs2 =>
          rw [show joinSemi (mapIdxFrom vaPart k (r :: r2 :: rs2))
              = vaPart k r ++ ';' :: joinSemi (mapIdxFrom vaPart (k + 1) (r2 :: rs2))
              from rfl, vaPart]
          rw [show (vclause k r ++ ';' :: aclause k r
                ++ ';' :: joinSemi (mapIdxFrom vaPart (k + 1) (r2 :: rs2))) ++ ';' :: T
              = vclause k r ++ ';' :: (aclause k r
                ++ ';' :: (joinSemi (mapIdxFrom vaPart (k + 1) (r2 :: rs2)) ++ ';' :: T)) by
            simp [List.append_assoc]]
          rw [semiSplit_append_semi _ _ (vclause_no_semi k r),
            semiSplit_append_semi _ _ (aclause_no_semi k r),
            ih (k + 1) T (by simp)]
          rfl

lemma mem_lit_prop {P : Char → Prop} {s : List Char} (hall : ∀ x ∈ s, P x)
    {c : Char} (h : c ∈ s) : P c := hall c h

lemma flat_no_semi (ks : List Range) (k : Nat) :
    ∀ c ∈ (mapIdxFrom (fun i _ => padPair i) k ks).flatten, c ≠ ';' :=
  fun c hc => (pads_flatten_clean ks k c hc).1

lemma concatClause_no_semi (n : Nat) : ∀ c ∈ concatClause n, c ≠ ';' :=
  fun c hc => (concatClause_clean n c hc).1

/-- Claim C5's structural core: for a non-empty keep list, splitting the
generated filter graph at `;` yields exactly the per-interval video and
audio trim clauses (in index order) followed by the expected tail
segments. -/
lemma semiSplit_build (ks : List Range) (h : ks ≠ []) (b : Bool) :
    semiSplit (buildFilterScript ks b) = clauseSegs 0 ks ++ tailSegs ks b := by
  unfold buildFilterScript
  rw [show str ";" = [';'] from rfl]
  simp only [List.append_assoc, List.singleton_append, List.cons_append,
    List.nil_append]
  rw [semiSplit_parts ks 0 _ h]
  congr 1
  cases b with
  | false =>
      rw [if_neg Bool.false_ne_true]
      rw [semiSplit_no_semi _ ?_]
      · simp [tailSegs, List.append_assoc]
      · intro c hc
        rcases List.mem_append.mp hc with h1 | h1
        · exact flat_no_semi ks 0 c h1
        rcases List.mem_append.mp h1 with h2 | h2
        · exact concatClause_no_semi _ c h2
        · exact mem_lit_prop (P := fun x => x ≠ ';') (by decide) h2
  | true =>
      rw [if_pos rfl]
      rw [show str "[tmpv][tmpa];[tmpv]copy[outv];[tmpa]loudnorm=I=-16:TP=-1.5:LRA=11[outa]"
          = str "[tmpv][tmpa]" ++ ';'
            :: (str "[tmpv]copy[outv]" ++ ';' :: str "[tmpa]loudnorm=I=-16:TP=-1.5:LRA=11[outa]")
          from rfl]
      rw [show (mapIdxFrom (fun i _ => padPair i) 0 ks).flatten ++
            (concatClause ks.length ++
              (str "[tmpv][tmpa]" ++ ';'
                :: (str "[tmpv]copy[outv]" ++ ';'
                  :: str "[tmpa]loudnorm=I=-16:TP=-1.5:LRA=11[outa]")))
          = ((mapIdxFrom (fun i _ => padPair i) 0 ks).flatten ++ concatClause ks.length ++
              str "[tmpv][tmpa]") ++ ';'
            :: (str "[tmpv]copy[outv]" ++ ';'
              :: str "[tmpa]loudnorm=I=-16:TP=-1.5:LRA=11[outa]") by
        simp [List.append_assoc]]
      rw [semiSplit_append_semi _ _ ?_, semiSplit_append_semi _ _ (by decide),
        semiSplit_no_semi _ (by decide)]
      · simp [tailSegs, List.append_assoc]
      · intro c hc
        rcases List.mem_append.mp hc with h1 | h1
        swap
        · exact mem_lit_prop (P := fun x => x ≠ ';') (by decide) h1
        rcases List.mem_append.mp h1 with h2 | h2
        · exact flat_no_semi ks 0 c h2
        · exact concatClause_no_semi _ c h2

lemma joinSemi_parts_not_l (ks : List Range) (k : Nat) :
    ∀ c ∈ joinSemi (mapIdxFrom vaPart k ks), c ≠ 'l' := by
  have hall : ∀ p ∈ mapIdxFrom vaPart k ks, ∀ c ∈ p, c ≠ 'l' := by
    induction ks generalizing k with
    | nil => intro p hp; simp [mapIdxFrom] at hp
    | cons r rs ih =>
        intro p hp
        rcases List.mem_cons.mp hp with h1 | h1
        · subst h1
          intro c hc
          rcases List.mem_append.mp hc with h2 | h2
          · exact (vclause_clean k r c h2).2
          · rcases List.mem_cons.mp h2 with h3 | h3
            · subst h3; decide
            · exact (aclause_clean k r c h3).2
        · exact ih (k + 1) p h1
  exact joinSemi_forall (by decide) _ hall

lemma build_prefix_not_l (ks : List Range) :
    ∀ c ∈ joinSemi (mapIdxFrom vaPart 0 ks) ++ str ";" ++
        (mapIdxFrom (fun i _ => padPair i) 0 ks).flatten ++
        concatClause ks.length, c ≠ 'l' := by
  intro c hc
  rcases List.mem_append.mp hc with h1 | h1
  swap
  · exact (concatClause_clean _ c h1).2
  rcases List.mem_append.mp h1 with h2 | h2
  swap
  · exact (pads_flatten_clean ks 0 c h2).2
  rcases List.mem_append.mp h2 with h3 | h3
  · exact joinSemi_parts_not_l ks 0 c h3
  · exact mem_lit_prop (P := fun x => x ≠ 'l') (by decide) h3

/-- With `normalizeAudio = false` the generated graph contains no
occurrence of `loudnorm`. -/
lemma build_false_no_loudnorm (ks : List Range) :
    countOccur (str "loudnorm") (buildFilterScript ks false) = 0 := by
  rw [show str "loudnorm" = 'l' :: str "oudnorm" from rfl]
  apply countOccur_eq_zero_of_free
  intro c hc
  unfold buildFilterScript at hc
  rw [if_neg Bool.false_ne_true] at hc
  rcases List.mem_append.mp hc with h1 | h1
  · exact build_prefix_not_l ks c h1
  · exact mem_lit_prop (P := fun x => x ≠ 'l') (by decide) h1

/-- With `normalizeAudio = true` the generated graph contains exactly
one occurrence of `loudnorm`. -/
lemma build_true_one_loudnorm (ks : List Range) :
    countOccur (str "loudnorm") (buildFilterScript ks true) = 1 := by
  rw [show str "loudnorm" = 'l' :: str "oudnorm" from rfl]
  unfold buildFilterScript
  rw [if_pos rfl]
  rw [countOccur_append_left_free _ _ _ _ (build_prefix_not_l ks)]
  decide

lemma isPrefixOf_v_vclause (k : Nat) (r : Range) :
    (str "[0:v]trim=").isPrefixOf (vclause k r) = true := by
  unfold vclause
  simp only [List.append_assoc]
  rw [isPrefixOf_append_left (str "[0:v]trim=") (str "[0:v]trim=start=") _ (by decide)]
  decide

lemma isPrefixOf_v_aclause (k : Nat) (r : Range) :
    (str "[0:v]trim=").isPrefixOf (aclause k r) = false := by
  unfold aclause
  simp only [List.append_assoc]
  rw [isPrefixOf_append_left (str "[0:v]trim=") (str "[0:a]atrim=start=") _ (by decide)]
  decide

lemma isPrefixOf_a_vclause (k : Nat) (r : Range) :
    (str "[0:a]atrim=").isPrefixOf (vclause k r) = false := by
  unfold vclause
  simp only [List.append_assoc]
  rw [isPrefixOf_append_left (str "[0:a]atrim=") (str "[0:v]trim=start=") _ (by decide)]
  decide

lemma isPrefixOf_a_aclause (k : Nat) (r : Range) :
    (str "[0:a]atrim=").isPrefixOf (aclause k r) = true := by
  unfold aclause
  simp only [List.append_assoc]
  rw [isPrefixOf_append_left (str "[0:a]atrim=") (str "[0:a]atrim=start=") _ (by decide)]
  decide

lemma countP_clauseSegs_v : ∀ (ks : List Range) (k : Nat),
    List.countP (fun seg => (str "[0:v]trim=").isPrefixOf seg) (clauseSegs k ks)
      = ks.length := by
  intro ks
  induction ks with
  | nil => intro k; rfl
  | cons r rs ih =>
      intro k
      rw [clauseSegs, List.countP_cons, List.countP_cons, ih (k + 1),
        isPrefixOf_v_vclause, isPrefixOf_v_aclause]
      simp

lemma countP_clauseSegs_a : ∀ (ks : List Range) (k : Nat),
    List.countP (fun seg => (str "[0:a]atrim=").isPrefixOf seg) (clauseSegs k ks)
      = ks.length := by
  intro ks
  induction ks with
  | nil => intro k; rfl
  | cons r rs ih =>
      intro k
      rw [clauseSegs, List.countP_cons, List.countP_cons, ih (k + 1),
        isPrefixOf_a_vclause, isPrefixOf_a_aclause]
      simp

lemma isPrefixOf_bracket0 (p X : List Char) :
    (('[' :: '0' :: p).isPrefixOf ('[' :: 'v' :: X)) = false := by
  simp only [List.isPrefixOf, show (('0' : Char) == 'v') = false from by decide,
    Bool.false_and, Bool.and_false]

/-- The concat segment of the tail begins with the first video pad
label `[v...`, so it is neither a video-trim nor an audio-trim
clause. -/
lemma catSeg_not_trim (r : Range) (rs : List Range) (L : List Char) :
    (str "[0:v]trim=").isPrefixOf
        ((mapIdxFrom (fun i _ => padPair i) 0 (r :: rs)).flatten ++
          concatClause (r :: rs).length ++ L) = false ∧
    (str "[0:a]atrim=").isPrefixOf
        ((mapIdxFrom (fun i _ => padPair i) 0 (r :: rs)).flatten ++
          concatClause (r :: rs).length ++ L) = false := by
  rw [show mapIdxFrom (fun i _ => padPair i) 0 (r :: rs)
      = padPair 0 :: mapIdxFrom (fun i _ => padPair i) 1 rs from rfl,
    List.flatten_cons, padPair, show str "[v" = ['[', 'v'] from rfl]
  simp only [List.append_assoc, List.cons_append, List.nil_append]
  constructor
  · rw [show str "[0:v]trim=" = '[' :: '0' :: str ":v]trim=" from rfl, isPrefixOf_bracket0]
  · rw [show str "[0:a]atrim=" = '[' :: '0' :: str ":a]atrim=" from rfl, isPrefixOf_bracket0]

lemma countP_tailSegs_v (r : Range) (rs : List Range) (b : Bool) :
    List.countP (fun seg => (str "[0:v]trim=").isPrefixOf seg) (tailSegs (r :: rs) b)
      = 0 := by
  cases b with
  | false =>
      show List.countP _ [_] = 0
      rw [List.countP_cons, List.countP_nil, (catSeg_not_trim r rs _).1]
      rfl
  | true =>
      show List.countP _ [_, _, _] = 0
      rw [List.countP_cons, List.countP_cons, List.countP_cons, List.countP_nil,
        (catSeg_not_trim r rs _).1,
        show (str "[0:v]trim=").isPrefixOf (str "[tmpv]copy[outv]") = false from by decide,
        show (str "[0:v]trim=").isPrefixOf
          (str "[tmpa]loudnorm=I=-16:TP=-1.5:LRA=11[outa]") = false from by decide]
      rfl

lemma countP_tailSegs_a (r : Range) (rs : List Range) (b : Bool) :
    List.countP (fun seg => (str "[0:a]atrim=").isPrefixOf seg) (tailSegs (r :: rs) b)
      = 0 := by
  cases b with
  | false =>
      show List.countP _ [_] = 0
      rw [List.countP_cons, List.countP_nil, (catSeg_not_trim r rs _).2]
      rfl
  | true =>
      show List.countP _ [_, _, _] = 0
      rw [List.countP_cons, List.countP_cons, List.countP_cons, List.countP_nil,
        (catSeg_not_trim r rs _).2,
        show (str "[0:a]atrim=").isPrefixOf (str "[tmpv]copy[outv]") = false from by decide,
        show (str "[0:a]atrim=").isPrefixOf
          (str "[tmpa]loudnorm=I=-16:TP=-1.5:LRA=11[outa]") = false from by decide]
      rfl

/-- Claim C5: for every non-empty keep list, (1) the `;`-segments of
the generated filter graph are exactly one video-trim clause and one
audio-trim clause per keep interval, in index order, followed by the
concat tail (with the two extra normalization segments iff
`normalizeAudio`); (2) with `normalizeAudio = false` the graph contains
no `loudnorm` clause; (3) with `normalizeAudio = true` it contains
exactly one; (4) in both variants the number of video-trim segments and
audio-trim segments both equal the number of keep intervals (matching
video/audio pad counts). -/
theorem buildFilterScript_structure (ks : List Range) (hks : ks ≠ []) :
    (∀ b, semiSplit (buildFilterScript ks b) = clauseSegs 0 ks ++ tailSegs ks b) ∧
    countOccur (str "loudnorm") (buildFilterScript ks false) = 0 ∧
    countOccur (str "loudnorm") (buildFilterScript ks true) = 1 ∧
    ∀ b, List.countP (fun seg => (str "[0:v]trim=").isPrefixOf seg)
          (semiSplit (buildFilterScript ks b)) = ks.length ∧
        List.countP (fun seg => (str "[0:a]atrim=").isPrefixOf seg)
          (semiSplit (buildFilterScript ks b)) = ks.length := by
  obtain ⟨r, rs, rfl⟩ := List.exists_cons_of_ne_nil hks
  refine ⟨fun b => semiSplit_build _ hks b, build_false_no_loudnorm _,
    build_true_one_loudnorm _, fun b => ⟨?_, ?_⟩⟩
  · rw [semiSplit_build _ hks b, List.countP_append, countP_clauseSegs_v,
      countP_tailSegs_v, Nat.add_zero]
  · rw [semiSplit_build _ hks b, List.countP_append, countP_clauseSegs_a,
      countP_tailSegs_a, Nat.add_zero]

theorem buildFilterScript_structure_witness :
    countOccur (str "loudnorm") (buildFilterScript [⟨0, 1⟩] false) = 0 ∧
    countOccur (str "loudnorm") (buildFilterScript [⟨0, 1⟩] true) = 1 :=
  ⟨(buildFilterScript_structure [⟨0, 1⟩] (by simp)).2.1,
   (buildFilterScript_structure [⟨0, 1⟩] (by simp)).2.2.1⟩

/-! ### Orchestration: processVideo (src/main.js:558-589) -/

/-- What `processVideo` does after computing the talking ranges: the
filter graph it builds, and whether it raises a no-content error or
reaches the encode invocation. -/
structure EncodePlan where
  talkingRanges : List Range
  filterGraph : List Char
  raisesNoContent : Bool
  invokesEncode : Bool

/-- Translated from `processVideo` (src/main.js:558-589): it computes
`talkingRanges` via `calculateTalkingRanges`, then unconditionally
builds the filter script, writes it, and calls
`processVideoWithFilter`.  The body contains no check that the keep
list is non-empty: no NoContent-style error exists anywhere in the
source, and the encode invocation is always reached (cancellation
aside), which is why `raisesNoContent` is constantly `false` and
`invokesEncode` constantly `true`. -/
def processVideoPlan (silenceRanges : List Range) (inputDuration : ℚ)
    (normalizeAudio : Bool) : EncodePlan :=
  let talkingRanges := calculateTalkingRanges silenceRanges inputDuration
  { talkingRanges := talkingRanges
    filterGraph := buildFilterScript talkingRanges normalizeAudio
    raisesNoContent := false
    invokesEncode := true }

/-- Claim C3 (amended): when reconstruction yields zero keep intervals
from a non-empty silence list, `processVideo` raises no NoContent-style
error; it builds the (degenerate) filter graph — for the empty keep
list and no normalization it is literally `;concat=n=0:v=1:a=1[outv][outa]`
— and proceeds to the encode invocation, whose failure then surfaces as
an engine error, not a NoContent error. -/
theorem processVideo_no_noContent_check (silence : List Range) (d : ℚ) (b : Bool)
    (hne : silence ≠ []) (hempty : calculateTalkingRanges silence d = []) :
    (processVideoPlan silence d b).raisesNoContent = false ∧
    (processVideoPlan silence d b).invokesEncode = true ∧
    (processVideoPlan silence d false).filterGraph
      = str ";concat=n=0:v=1:a=1[outv][outa]" := by
  refine ⟨rfl, rfl, ?_⟩
  simp only [processVideoPlan, hempty]
  decide

/-- Claim C3, counterexample: silence `[[0,10]]` over duration 10 has no
keep intervals, yet `processVideo` neither raises a NoContent error nor
stops: it builds the `;concat=n=0` graph and invokes the encode. -/
theorem processVideo_empty_keep_proceeds :
    calculateTalkingRanges [⟨0, 10⟩] 10 = [] ∧
    ([⟨0, 10⟩] : List Range) ≠ [] ∧
    (processVideoPlan [⟨0, 10⟩] 10 false).invokesEncode = true ∧
    (processVideoPlan [⟨0, 10⟩] 10 false).raisesNoContent = false ∧
    (processVideoPlan [⟨0, 10⟩] 10 false).filterGraph
      = str ";concat=n=0:v=1:a=1[outv][outa]" := by
  have h : calculateTalkingRanges [⟨0, 10⟩] 10 = [] := by
    norm_num [calculateTalkingRanges, calcTalkingLoop, MIN_SEGMENT_DURATION]
  refine ⟨h, by simp, rfl, rfl, ?_⟩
  simp only [processVideoPlan, h]
  decide

theorem processVideo_no_noContent_check_witness :
    (processVideoPlan [⟨0, 5⟩] 5 true).raisesNoContent = false ∧
    (processVideoPlan [⟨0, 5⟩] 5 true).invokesEncode = true ∧
    (processVideoPlan [⟨0, 5⟩] 5 false).filterGraph
      = str ";concat=n=0:v=1:a=1[outv][outa]" :=
  processVideo_no_noContent_check [⟨0, 5⟩] 5 true (by simp)
    (by norm_num [calculateTalkingRanges, calcTalkingLoop, MIN_SEGMENT_DURATION])

/-! ### Encode-phase progress and ETA (src/main.js:377-398) -/

/-- JS `Math.round` on a rational. -/
def jsRound (q : ℚ) : ℤ := ⌊q + 1 / 2⌋

/-- The percent computed from a parsed timemark in the encode progress
handler (src/main.js:380-387):
`Math.min(99, Math.round(currentTime / expectedDuration * 100))`. -/
def percentFromTime (currentTime expectedDuration : ℚ) : ℚ :=
  min 99 ((jsRound (currentTime / expectedDuration * 100) : ℚ))

/-- The percent the encode progress handler reports for one event:
`percent` starts at 0 and is only reassigned when the event carries a
`timemark` that splits into three `:`-separated fields, so an event
without a usable timemark reports 0. -/
def handlerPercent (expectedDuration : ℚ) (ev : Option ℚ) : ℚ :=
  match ev with
  | some t => percentFromTime t expectedDuration
  | none => 0

/-- The sequence of percents the encode handler emits for a sequence of
progress events (`some t` = parsed timemark seconds `t`; `none` = no
usable timemark). -/
def encodeProgressPercents (expectedDuration : ℚ) (events : List (Option ℚ)) : List ℚ :=
  events.map (handlerPercent expectedDuration)

/-- The ETA term of the status line (src/main.js:389-396): present iff
`percent > 5 && elapsed > 2`, with value
`Math.max(0, elapsed / (percent / 100) - elapsed)` seconds. -/
def etaOf (elapsed percent : ℚ) : Option ℚ :=
  if percent > 5 ∧ elapsed > 2 then some (max 0 (elapsed / (percent / 100) - elapsed))
  else none

lemma eta_algebra (e p : ℚ) (he : 0 ≤ e) (hp : 0 < p) (hple : p ≤ 100) :
    max 0 (e / (p / 100) - e) = e * (100 / p - 1) := by
  have hne : p ≠ 0 := ne_of_gt hp
  have hval : e / (p / 100) - e = e * (100 / p - 1) := by
    field_simp
    ring
  rw [hval, max_eq_right]
  exact mul_nonneg he (sub_nonneg.mpr ((one_le_div hp).mpr hple))

/-- Claim C9 (amended): the code's ETA expression
`max(0, elapsed/(percent/100) − elapsed)` equals
`elapsed × (100/percent − 1)` for every `0 < percent ≤ 100` and
non-negative elapsed (not for every `percent > 0`: above 100 the `max`
clamps to 0, see the counterexample).  The handler's computed percent
never exceeds 99, so whenever it exceeds 5 and elapsed exceeds 2 the
reported ETA equals `elapsed × (100/percent − 1)`; when either
condition fails no ETA is included. -/
theorem eta_formula :
    (∀ e p : ℚ, 0 ≤ e → 0 < p → p ≤ 100 →
        max 0 (e / (p / 100) - e) = e * (100 / p - 1)) ∧
    (∀ D t e : ℚ, 5 < percentFromTime t D → 2 < e →
        etaOf e (percentFromTime t D)
          = some (e * (100 / percentFromTime t D - 1))) ∧
    (∀ e p : ℚ, ¬(p > 5 ∧ e > 2) → etaOf e p = none) := by
  refine ⟨eta_algebra, fun D t e hp he => ?_, fun e p h => by rw [etaOf, if_neg h]⟩
  rw [etaOf, if_pos ⟨hp, he⟩]
  congr 1
  refine eta_algebra e _ (le_of_lt (lt_trans (by norm_num) he))
    (lt_trans (by norm_num) hp) ?_
  exact le_trans (min_le_left _ _) (by norm_num)

/-- Claim C9, counterexample to the "for every percent > 0" aside: at
`percent = 200`, `elapsed = 10` the code's clamped expression is 0
while the formula gives −5. -/
theorem eta_clamp :
    etaOf 10 200 = some 0 ∧ (10 : ℚ) * (100 / 200 - 1) = -5 ∧ (0 : ℚ) ≠ -5 := by
  refine ⟨?_, by norm_num, by norm_num⟩
  rw [etaOf, if_pos (by norm_num)]
  congr 1
  have h : (10 : ℚ) / (200 / 100) - 10 = -5 := by norm_num
  rw [h]
  exact max_eq_left (by norm_num)

theorem eta_formula_witness : etaOf 1 10 = none :=
  eta_formula.2.2 1 10 (by norm_num)

/-! ### Active-process tracking and cancellation (src/main.js:47-66) -/

/-- The module-level mutable state `currentFFmpegProcess` /
`isCancelled` (src/main.js:47-48); process handles are abstracted as
naturals. -/
structure ProcState where
  currentFFmpegProcess : Option Nat
  isCancelled : Bool
deriving DecidableEq, Repr

/-- `cancelActiveProcess()` (src/main.js:58-66): set `isCancelled`; if
a process handle is present, send it SIGTERM (returned as the list of
signalled handles — the surrounding `try/catch` swallows any `kill`
error, so the function has no failure path) and clear the handle. -/
def cancelActiveProcess (st : ProcState) : ProcState × List Nat :=
  let st1 : ProcState := { st with isCancelled := true }
  match st.currentFFmpegProcess with
  | some p => ({ st1 with currentFFmpegProcess := none }, [p])
  | none => (st1, [])

/-- Claim C10: after one call the cancelled flag is set and the handle
is cleared; a second immediate call leaves that state unchanged and
signals no process; and a call with no active handle sets the flag,
returns no signals, and (being a total function — the JS `try/catch`
swallows `kill` errors) never throws. -/
theorem cancelActiveProcess_idempotent (st : ProcState) :
    ((cancelActiveProcess st).1.isCancelled = true ∧
      (cancelActiveProcess st).1.currentFFmpegProcess = none) ∧
    (cancelActiveProcess (cancelActiveProcess st).1).1 = (cancelActiveProcess st).1 ∧
    (cancelActiveProcess (cancelActiveProcess st).1).2 = [] ∧
    ∀ b : Bool, (cancelActiveProcess ⟨none, b⟩).2 = [] := by
  cases st with
  | mk proc flag => cases proc <;> simp [cancelActiveProcess]

theorem cancelActiveProcess_idempotent_witness :
    (cancelActiveProcess ⟨some 7, false⟩).1.isCancelled = true ∧
    (cancelActiveProcess ⟨some 7, false⟩).1.currentFFmpegProcess = none :=
  (cancelActiveProcess_idempotent ⟨some 7, false⟩).1

/-! ### The start-processing job (src/main.js:652-707) -/

/-- The externally-determined events of one `start-processing` run:
* `detectRejects` — the `detectSilence` promise rejected (its `error`
  handler, or its `end` handler observing `isCancelled`,
  src/main.js:537-547);
* `silence` — the resolved silence ranges otherwise;
* `cancelAfterDetect` — `isCancelled` read at src/main.js:666;
* `normalizeAudio` — `params.normalizeAudio`;
* `normalizeRejects` — `normalizeAudioOnly` rejected (the plain
  `fs.copyFile` path is modelled as succeeding);
* `encodeRejects` — `processVideo` threw (the encode `error` handler,
  or its `end`/entry cancellation rejections, src/main.js:400-410);
* `cancelAfterEncode` — `isCancelled` read at src/main.js:691;
* `cancelInCatch` — `isCancelled` read in the catch at src/main.js:698;
* `errMsgHasCancelled` — `error.message.includes('cancelled')`. -/
structure JobEnv where
  detectRejects : Bool
  silence : List Range
  cancelAfterDetect : Bool
  normalizeAudio : Bool
  normalizeRejects : Bool
  encodeRejects : Bool
  cancelAfterEncode : Bool
  cancelInCatch : Bool
  errMsgHasCancelled : Bool

/-- The observable outcome of one run: the final `completed` reply's
`success`/`cancelled` flags, whether an error reply was sent, whether
`fs.remove(outputFile)` was executed, and the percent carried by the
Phase 2 progress reply when phase 2 was reached. -/
structure JobOutcome where
  success : Bool
  cancelled : Bool
  errored : Bool
  removedOutputFile : Bool
  phase2StartPercent : Option ℚ
deriving Repr

/-- The `start-processing` IPC handler (src/main.js:652-707), with the
awaited external steps abstracted by `JobEnv`.  Note the catch path
(src/main.js:697-706) replies `{success:false, cancelled:true}` when
cancellation is observed but contains no `fs.remove(outputFile)`: the
only removal is on the resolve path at src/main.js:692. -/
def startProcessing (env : JobEnv) : JobOutcome :=
  if env.detectRejects then
    if env.cancelInCatch || env.errMsgHasCancelled then
      ⟨false, true, false, false, none⟩
    else ⟨false, false, true, false, none⟩
  else if env.cancelAfterDetect then ⟨false, true, false, false, none⟩
  else if env.silence.isEmpty then
    if env.normalizeAudio && env.normalizeRejects then
      if env.cancelInCatch || env.errMsgHasCancelled then
        ⟨false, true, false, false, none⟩
      else ⟨false, false, true, false, none⟩
    else ⟨true, false, false, false, none⟩
  else
    if env.encodeRejects then
      if env.cancelInCatch || env.errMsgHasCancelled then
        ⟨false, true, false, false, some 0⟩
      else ⟨false, false, true, false, some 0⟩
    else if env.cancelAfterEncode then ⟨false, true, false, true, some 0⟩
    else ⟨true, false, false, false, some 0⟩

/-- Claim C6, evaluated at the failing input: cancellation during the
encode phase kills the ffmpeg process, whose `error` event rejects the
`processVideo` promise; the catch path then replies
`{success:false, cancelled:true}` — but never removes the
partially-written output file, contrary to the claim. -/
theorem cancel_during_encode_keeps_partial_output :
    (startProcessing ⟨false, [⟨1, 2⟩], false, false, false, true, true, true, true⟩).success
        = false ∧
    (startProcessing ⟨false, [⟨1, 2⟩], false, false, false, true, true, true, true⟩).cancelled
        = true ∧
    (startProcessing
        ⟨false, [⟨1, 2⟩], false, false, false, true, true, true, true⟩).removedOutputFile
        = false := by
  refine ⟨rfl, rfl, rfl⟩

lemma percentFromTime_mono {D t1 t2 : ℚ} (hD : 0 < D) (h : t1 ≤ t2) :
    percentFromTime t1 D ≤ percentFromTime t2 D := by
  unfold percentFromTime
  refine min_le_min (le_refl 99) ?_
  have hdiv : t1 / D ≤ t2 / D := (div_le_div_iff_of_pos_right hD).mpr h
  exact_mod_cast Int.floor_le_floor
    (add_le_add_right (mul_le_mul_of_nonneg_right hdiv (by norm_num)) _)

/-- Claim C7 (amended): over encode-phase progress events that carry a
parseable timemark, with positive expected duration and non-decreasing
event times, the emitted percents are non-decreasing; the Phase 2
transition reply carries percent 0; but an event without a usable
timemark reports percent 0, which is a decrease after any positive
report (see the counterexample) — the handler keeps no running maximum. -/
theorem encode_percent_monotone :
    (∀ (D : ℚ) (ts : List ℚ), 0 < D → List.Chain' (· ≤ ·) ts →
        List.Chain' (· ≤ ·) (encodeProgressPercents D (ts.map some))) ∧
    (∀ D : ℚ, handlerPercent D none = 0) ∧
    (∀ env : JobEnv, env.detectRejects = false → env.cancelAfterDetect = false →
        env.silence ≠ [] → (startProcessing env).phase2StartPercent = some 0) := by
  refine ⟨fun D ts hD hts => ?_, fun D => rfl, fun env h1 h2 h3 => ?_⟩
  · unfold encodeProgressPercents
    rw [List.map_map, List.chain'_map]
    exact hts.imp fun a b h => percentFromTime_mono hD h
  · unfold startProcessing
    rw [h1, h2]
    simp only [Bool.false_eq_true, if_false]
    rw [show env.silence.isEmpty = false by
      cases hs : env.silence with
      | nil => exact absurd hs h3
      | cons a l => rfl]
    simp only [Bool.false_eq_true, if_false]
    split
    · split <;> rfl
    · split <;> rfl

/-- Claim C7, counterexample: with expected duration 1200s, a progress
event at timemark 600s reports 50, and a following event without a
timemark reports 0 — the emitted percents decrease within the encode
phase. -/
theorem encode_percent_drop :
    encodeProgressPercents 1200 [some 600, none] = [50, 0] ∧
    ¬ List.Chain' (· ≤ ·) (encodeProgressPercents 1200 [some 600, none]) := by
  have h50 : handlerPercent 1200 (some 600) = 50 := by
    show percentFromTime 600 1200 = 50
    unfold percentFromTime jsRound
    have harg : (600 : ℚ) / 1200 * 100 + 1 / 2 = 101 / 2 := by norm_num
    rw [harg]
    have hfl : ⌊(101 / 2 : ℚ)⌋ = 50 := by
      rw [Int.floor_eq_iff]
      norm_num
    rw [hfl]
    norm_num
  have hlist : encodeProgressPercents 1200 [some 600, none] = [50, 0] := by
    unfold encodeProgressPercents
    rw [List.map_cons, List.map_cons, List.map_nil, h50]
    rfl
  refine ⟨hlist, ?_⟩
  rw [hlist]
  intro hc
  have h := (List.chain'_cons.mp hc).1
  norm_num at h

theorem encode_percent_monotone_witness :
    List.Chain' (· ≤ ·) (encodeProgressPercents 1200 ([10, 20].map some)) :=
  encode_percent_monotone.1 1200 [10, 20] (by norm_num)
    (by simp [List.chain'_cons]; norm_num)

end Klyppr
